import Mathlib

/-!
Verification of the silence-remover API core against its specification.

The Python sources (`remove_silence.py`, `create_srt.py`, `app.py`) are
shallowly embedded below: pure functions become Lean functions over `ℚ`
(Python floats are idealized as exact rationals except where IEEE-754
binary64 rounding is decisive, in which case an explicit double-rounding
model `roundDouble` is used), file writes become lists of emitted lines,
exceptions become `Except`, and the in-memory job table becomes an
association list threaded through explicit state.
-/

namespace SilenceRemover

/-! ### Timeline planner (`remove_silence.py`)

`create_filter_complex(silences, video_duration)` walks the silence list
with a cursor and collects the segments to keep.  An interval `{start, end}`
is modelled as a pair of rationals; all intervals are read as half-open
`[start, end)`, matching ffmpeg `trim=start=..:end=..` semantics.
-/

/-- A time interval `{'start': …, 'end': …}` in seconds. -/
structure Interval where
  start : ℚ
  «end» : ℚ
  deriving DecidableEq, Repr

/-- The segment-collection loop of `create_filter_complex`
(`remove_silence.py` lines 78–93), with the cursor `current_time`
made an explicit argument.  For each silence whose start exceeds the
cursor a keep segment `[cursor, silence.start)` is emitted and the cursor
advances to `silence.end`; after the loop a final segment
`[cursor, video_duration)` is emitted when the cursor is still short of
the total duration. -/
def keepSegmentsAux (silences : List Interval) (current_time video_duration : ℚ) :
    List Interval :=
  match silences with
  | [] => if current_time < video_duration then [⟨current_time, video_duration⟩] else []
  | s :: rest =>
      (if s.start > current_time then [⟨current_time, s.start⟩] else []) ++
        keepSegmentsAux rest s.«end» video_duration

/-- The keep-segment planner: the `segments` list computed by
`create_filter_complex` starting from `current_time = 0`. -/
def planKeepSegments (silences : List Interval) (video_duration : ℚ) : List Interval :=
  keepSegmentsAux silences 0 video_duration

/-- `create_filter_complex` (`remove_silence.py` lines 75–119): returns
`none` when there is no segment to keep (the Python function returns
`None`), otherwise the kept segments.  The ffmpeg filter string built from
the segments (one `trim`/`atrim` pair per segment plus a `concat`) is in
1:1 correspondence with the returned list and is elided here. -/
def create_filter_complex (silences : List Interval) (video_duration : ℚ) :
    Option (List Interval) :=
  let segments := planKeepSegments silences video_duration
  if segments = [] then none else some segments

/-- Planning-stage outcome of `remove_silence_from_url`
(`remove_silence.py` lines 136–158): empty silence list short-circuits to
the `no_silence` status; a failed plan (`create_filter_complex` returned
`None`) yields the `error` status `'Could not create filter'`; otherwise
processing proceeds with the planned segments. -/
inductive RemoveSilencePlan where
  | no_silence
  | error
  | proceed (segments : List Interval)
  deriving DecidableEq, Repr

/-- The decision skeleton of `remove_silence_from_url` up to the point the
ffmpeg re-encode is launched (`remove_silence.py` lines 136–158). -/
def remove_silence_from_url_plan (silences : List Interval) (video_duration : ℚ) :
    RemoveSilencePlan :=
  if silences = [] then .no_silence
  else
    match create_filter_complex silences video_duration with
    | none => .error
    | some segments => .proceed segments

/-- Membership of a time `x` in the union of a list of half-open segments. -/
def segMem (segs : List Interval) (x : ℚ) : Prop :=
  ∃ s ∈ segs, s.start ≤ x ∧ x < s.«end»

instance (segs : List Interval) (x : ℚ) : Decidable (segMem segs x) :=
  List.decidableBEx _ segs

theorem segMem_nil (x : ℚ) : ¬ segMem [] x := by
  simp [segMem]

theorem segMem_append (a b : List Interval) (x : ℚ) :
    segMem (a ++ b) x ↔ segMem a x ∨ segMem b x := by
  simp [segMem, List.mem_append]
  constructor
  · rintro ⟨s, hs | hs, h1, h2⟩
    · exact Or.inl ⟨s, hs, h1, h2⟩
    · exact Or.inr ⟨s, hs, h1, h2⟩
  · rintro (⟨s, hs, h1, h2⟩ | ⟨s, hs, h1, h2⟩)
    · exact ⟨s, Or.inl hs, h1, h2⟩
    · exact ⟨s, Or.inr hs, h1, h2⟩

theorem segMem_singleton (s : Interval) (x : ℚ) :
    segMem [s] x ↔ s.start ≤ x ∧ x < s.«end» := by
  simp [segMem]

/-- Union property of the cursor loop, with the cursor generalized: assuming
the remaining silences are pairwise separated, valid, within the duration
and at or after the cursor, the emitted segments cover exactly the times in
`[cursor, video_duration)` not covered by a silence. -/
theorem keepSegmentsAux_mem (D x : ℚ) (silences : List Interval) :
    ∀ c : ℚ,
      silences.Pairwise (fun a b => a.«end» ≤ b.start) →
      (∀ s ∈ silences, s.start < s.«end» ∧ s.«end» ≤ D) →
      (∀ s ∈ silences, c ≤ s.start) →
      (segMem (keepSegmentsAux silences c D) x ↔
        (c ≤ x ∧ x < D ∧ ∀ s ∈ silences, ¬(s.start ≤ x ∧ x < s.«end»))) := by
  induction silences with
  | nil =>
      intro c _ _ _
      simp only [keepSegmentsAux]
      by_cases h : c < D
      · simp only [h, if_true, segMem_singleton]
        constructor
        · rintro ⟨h1, h2⟩; exact ⟨h1, h2, by simp⟩
        · rintro ⟨h1, h2, _⟩; exact ⟨h1, h2⟩
      · simp only [h, if_false]
        constructor
        · intro hx; exact absurd hx (segMem_nil x)
        · rintro ⟨h1, h2, _⟩; exact absurd (lt_of_le_of_lt h1 h2) h
  | cons s rest ih =>
      intro c hp hv hc
      have hps : ∀ t ∈ rest, s.«end» ≤ t.start := (List.pairwise_cons.mp hp).1
      have hpr : rest.Pairwise (fun a b => a.«end» ≤ b.start) :=
        (List.pairwise_cons.mp hp).2
      have hvs : s.start < s.«end» ∧ s.«end» ≤ D := hv s (List.mem_cons_self s rest)
      have hvr : ∀ t ∈ rest, t.start < t.«end» ∧ t.«end» ≤ D :=
        fun t ht => hv t (List.mem_cons_of_mem s ht)
      have hcs : c ≤ s.start := hc s (List.mem_cons_self s rest)
      have ihr := ih s.«end» hpr hvr hps
      simp only [keepSegmentsAux, segMem_append]
      by_cases hgt : s.start > c
      · simp only [hgt, if_true, segMem_singleton, ihr]
        constructor
        · rintro (⟨h1, h2⟩ | ⟨h1, h2, h3⟩)
          · refine ⟨h1, by linarith [hvs.1, hvs.2], ?_⟩
            intro t ht
            rcases List.mem_cons.mp ht with rfl | ht'
            · rintro ⟨ha, _⟩; linarith
            · rintro ⟨ha, _⟩
              have := hps t ht'
              linarith [hvs.1]
          · refine ⟨by linarith [hvs.1], h2, ?_⟩
            intro t ht
            rcases List.mem_cons.mp ht with rfl | ht'
            · rintro ⟨_, hb⟩; linarith
            · exact h3 t ht'
        · rintro ⟨h1, h2, h3⟩
          by_cases hx : x < s.start
          · exact Or.inl ⟨h1, hx⟩
          · have hge : s.«end» ≤ x := by
              have := h3 s (List.mem_cons_self s rest)
              by_contra hlt
              exact this ⟨le_of_not_lt hx, lt_of_not_le hlt⟩
            exact Or.inr ⟨hge, h2, fun t ht => h3 t (List.mem_cons_of_mem s ht)⟩
      · simp only [hgt, if_false]
        have hcs' : c = s.start := le_antisymm hcs (le_of_not_lt hgt)
        constructor
        · intro h
          rcases h with h | h
          · exact absurd h (segMem_nil x)
          · rcases ihr.mp h with ⟨h1, h2, h3⟩
            refine ⟨by linarith [hvs.1], h2, ?_⟩
            intro t ht
            rcases List.mem_cons.mp ht with rfl | ht'
            · rintro ⟨_, hb⟩; linarith
            · exact h3 t ht'
        · rintro ⟨h1, h2, h3⟩
          have hxs : s.start ≤ x := hcs' ▸ h1
          have hge : s.«end» ≤ x := by
            have := h3 s (List.mem_cons_self s rest)
            by_contra hlt
            exact this ⟨hxs, lt_of_not_le hlt⟩
          exact Or.inr (ihr.mpr ⟨hge, h2, fun t ht => h3 t (List.mem_cons_of_mem s ht)⟩)

/-- The loop emits at most one segment per silence plus one final segment. -/
theorem keepSegmentsAux_length (silences : List Interval) :
    ∀ c D : ℚ, (keepSegmentsAux silences c D).length ≤ silences.length + 1 := by
  induction silences with
  | nil =>
      intro c D
      simp only [keepSegmentsAux]
      by_cases h : c < D <;> simp [h]
  | cons s rest ih =>
      intro c D
      simp only [keepSegmentsAux, List.length_append, List.length_cons]
      by_cases h : s.start > c
      · have := ih s.«end» D
        simp only [h, if_true, List.length_singleton]
        omega
      · simp only [h, if_false, List.length_nil, Nat.zero_add]
        exact le_trans (ih s.«end» D) (Nat.le_succ _)

/-- Every emitted segment is non-degenerate (`start < end`),
unconditionally: both emission sites are guarded by a strict comparison. -/
theorem keepSegmentsAux_valid (silences : List Interval) :
    ∀ c D : ℚ, ∀ seg ∈ keepSegmentsAux silences c D, seg.start < seg.«end» := by
  induction silences with
  | nil =>
      intro c D seg hseg
      simp only [keepSegmentsAux] at hseg
      by_cases h : c < D
      · simp only [h, if_true, List.mem_singleton] at hseg
        subst hseg; exact h
      · simp [h] at hseg
  | cons s rest ih =>
      intro c D seg hseg
      simp only [keepSegmentsAux, List.mem_append] at hseg
      rcases hseg with hseg | hseg
      · by_cases h : s.start > c
        · simp only [h, if_true, List.mem_singleton] at hseg
          subst hseg; exact h
        · simp [h] at hseg
      · exact ih s.«end» D seg hseg

/-- Every emitted segment starts at or after the cursor, provided the
remaining silences are separated, valid and start at or after the cursor. -/
theorem keepSegmentsAux_start_ge (silences : List Interval) :
    ∀ c D : ℚ,
      silences.Pairwise (fun a b => a.«end» ≤ b.start) →
      (∀ s ∈ silences, s.start < s.«end») →
      (∀ s ∈ silences, c ≤ s.start) →
      ∀ seg ∈ keepSegmentsAux silences c D, c ≤ seg.start := by
  induction silences with
  | nil =>
      intro c D _ _ _ seg hseg
      simp only [keepSegmentsAux] at hseg
      by_cases h : c < D
      · simp only [h, if_true, List.mem_singleton] at hseg
        subst hseg; exact le_refl c
      · simp [h] at hseg
  | cons s rest ih =>
      intro c D hp hv hc seg hseg
      have hps : ∀ t ∈ rest, s.«end» ≤ t.start := (List.pairwise_cons.mp hp).1
      have hpr : rest.Pairwise (fun a b => a.«end» ≤ b.start) :=
        (List.pairwise_cons.mp hp).2
      have hvs : s.start < s.«end» := hv s (List.mem_cons_self s rest)
      have hcs : c ≤ s.start := hc s (List.mem_cons_self s rest)
      have hvr : ∀ t ∈ rest, t.start < t.«end» :=
        fun t ht => hv t (List.mem_cons_of_mem s ht)
      simp only [keepSegmentsAux, List.mem_append] at hseg
      rcases hseg with hseg | hseg
      · by_cases h : s.start > c
        · simp only [h, if_true, List.mem_singleton] at hseg
          subst hseg; exact le_refl c
        · simp [h] at hseg
      · have : s.«end» ≤ seg.start := ih s.«end» D hpr hvr hps seg hseg
        exact le_trans (le_trans hcs (le_of_lt hvs)) this

/-- The emitted segments are ordered and mutually disjoint: each segment
ends no later than the next one starts. -/
theorem keepSegmentsAux_ordered (silences : List Interval) :
    ∀ c D : ℚ,
      silences.Pairwise (fun a b => a.«end» ≤ b.start) →
      (∀ s ∈ silences, s.start < s.«end») →
      (∀ s ∈ silences, c ≤ s.start) →
      (keepSegmentsAux silences c D).Pairwise (fun a b => a.«end» ≤ b.start) := by
  induction silences with
  | nil =>
      intro c D _ _ _
      simp only [keepSegmentsAux]
      by_cases h : c < D <;> simp [h]
  | cons s rest ih =>
      intro c D hp hv hc
      have hps : ∀ t ∈ rest, s.«end» ≤ t.start := (List.pairwise_cons.mp hp).1
      have hpr : rest.Pairwise (fun a b => a.«end» ≤ b.start) :=
        (List.pairwise_cons.mp hp).2
      have hvs : s.start < s.«end» := hv s (List.mem_cons_self s rest)
      have hcs : c ≤ s.start := hc s (List.mem_cons_self s rest)
      have hvr : ∀ t ∈ rest, t.start < t.«end» :=
        fun t ht => hv t (List.mem_cons_of_mem s ht)
      have ihr := ih s.«end» D hpr hvr hps
      simp only [keepSegmentsAux]
      by_cases h : s.start > c
      · simp only [h, if_true, List.singleton_append, List.pairwise_cons]
        refine ⟨?_, ihr⟩
        intro seg hseg
        have : s.«end» ≤ seg.start :=
          keepSegmentsAux_start_ge rest s.«end» D hpr hvr hps seg hseg
        exact le_trans (le_of_lt hvs) this
      · simpa [h] using ihr

/-- Claim C1 (amended): for a silence list sorted by start, non-overlapping,
and contained in `[0, totalDuration]` (each silence satisfies
`0 ≤ start < end ≤ totalDuration`), the segment computation of
`create_filter_complex` returns an ordered list of non-degenerate segments
whose union (of half-open intervals) is exactly `[0, totalDuration)` minus
the union of the silences, and whose length is at most
`len(silences) + 1`.  The containment precondition is the amendment: a
silence lying past `totalDuration` makes the as-stated claim false. -/
theorem planKeepSegments_spec (silences : List Interval) (D : ℚ)
    (hsorted : silences.Pairwise (fun a b => a.«end» ≤ b.start))
    (hvalid : ∀ s ∈ silences, 0 ≤ s.start ∧ s.start < s.«end» ∧ s.«end» ≤ D) :
    (∀ x : ℚ, segMem (planKeepSegments silences D) x ↔
        (0 ≤ x ∧ x < D ∧ ∀ s ∈ silences, ¬(s.start ≤ x ∧ x < s.«end»))) ∧
    (planKeepSegments silences D).length ≤ silences.length + 1 ∧
    (planKeepSegments silences D).Pairwise (fun a b => a.«end» ≤ b.start) ∧
    (∀ seg ∈ planKeepSegments silences D, seg.start < seg.«end») := by
  have hv : ∀ s ∈ silences, s.start < s.«end» ∧ s.«end» ≤ D :=
    fun s hs => ⟨(hvalid s hs).2.1, (hvalid s hs).2.2⟩
  have hv' : ∀ s ∈ silences, s.start < s.«end» := fun s hs => (hvalid s hs).2.1
  have hc : ∀ s ∈ silences, (0 : ℚ) ≤ s.start := fun s hs => (hvalid s hs).1
  refine ⟨fun x => keepSegmentsAux_mem D x silences 0 hsorted hv hc,
    keepSegmentsAux_length silences 0 D,
    keepSegmentsAux_ordered silences 0 D hsorted hv' hc,
    keepSegmentsAux_valid silences 0 D⟩

/-- Witness for `planKeepSegments_spec` at the concrete input
`silences = [[1,2)]`, `totalDuration = 3`. -/
theorem planKeepSegments_spec_witness :
    (∀ x : ℚ, segMem (planKeepSegments [⟨1, 2⟩] 3) x ↔
        (0 ≤ x ∧ x < 3 ∧ ∀ s ∈ [Interval.mk 1 2], ¬(s.start ≤ x ∧ x < s.«end»))) ∧
    (planKeepSegments [⟨1, 2⟩] 3).length ≤ [Interval.mk 1 2].length + 1 ∧
    (planKeepSegments [⟨1, 2⟩] 3).Pairwise (fun a b => a.«end» ≤ b.start) ∧
    (∀ seg ∈ planKeepSegments [⟨1, 2⟩] 3, seg.start < seg.«end») :=
  planKeepSegments_spec [⟨1, 2⟩] 3 (by decide) (by decide)

/-- Counterexample to claim C1 as stated: with the sorted, non-overlapping
silence list `[[5,6)]` and `totalDuration = 3`, the planner emits the
segment `[0,5)`, so the time `x = 4` lies in the union of the emitted
segments but not in `[0,3]` minus the silences. -/
theorem planKeepSegments_not_complement_when_silence_past_duration :
    segMem (planKeepSegments [⟨5, 6⟩] 3) 4 ∧
      ¬((0 : ℚ) ≤ 4 ∧ (4 : ℚ) < 3 ∧
        ∀ s ∈ [Interval.mk 5 6], ¬(s.start ≤ 4 ∧ (4 : ℚ) < s.«end»)) := by
  constructor
  · exact ⟨⟨0, 5⟩, by simp [planKeepSegments, keepSegmentsAux], by norm_num, by norm_num⟩
  · rintro ⟨_, h, _⟩; norm_num at h

/-- Claim C2: an all-silence input (`silences = [[0,D)]` with total duration
`D`) yields an empty keep-segment plan, `create_filter_complex` reports the
failure as `None`, and the orchestrator turns this into the terminal
`error` outcome (`'Could not create filter'`), which is distinct from the
`no_silence` outcome reserved for an empty silence list. -/
theorem all_silence_is_planning_error (D : ℚ) :
    planKeepSegments [⟨0, D⟩] D = [] ∧
    create_filter_complex [⟨0, D⟩] D = none ∧
    remove_silence_from_url_plan [⟨0, D⟩] D = .error ∧
    remove_silence_from_url_plan [] D = .no_silence ∧
    RemoveSilencePlan.error ≠ RemoveSilencePlan.no_silence := by
  have h1 : planKeepSegments [⟨0, D⟩] D = [] := by
    simp [planKeepSegments, keepSegmentsAux, lt_irrefl]
  refine ⟨h1, ?_, ?_, by simp [remove_silence_from_url_plan], by simp⟩
  · simp [create_filter_complex, h1]
  · simp [remove_silence_from_url_plan, create_filter_complex, h1]

/-! ### IEEE-754 binary64 rounding model

`format_timestamp` (`create_srt.py` lines 4–10) operates on Python floats.
Floats are represented here as the exact rationals they denote.  Where the
source performs an operation whose exact result need not be representable
— parsing a decimal literal, and the multiplication `(seconds % 1) * 1000`
— the exact rational result is rounded to the nearest binary64 value
(ties to even) by `roundDouble`.  The remainder `%` of two nonnegative
doubles is exactly representable (so it is modelled exactly), and the
floor divisions in `format_timestamp` produce small integers exactly at
the magnitudes involved.  Exponent search uses fuel-based structural
recursion so that all values kernel-reduce. -/

/-- Multiplication on `ℚ`, written out on numerators and denominators so
that it reduces inside the kernel (`Rat.mul` is `@[irreducible]`).
`qMul_eq` identifies it with `·*·`. -/
def qMul (a b : ℚ) : ℚ := Rat.divInt (a.num * b.num) ((a.den : ℤ) * (b.den : ℤ))

/-- Subtraction on `ℚ`, kernel-reducible form; see `qSub_eq`. -/
def qSub (a b : ℚ) : ℚ :=
  Rat.divInt (a.num * (b.den : ℤ) - b.num * (a.den : ℤ)) ((a.den : ℤ) * (b.den : ℤ))

/-- Division on `ℚ`, kernel-reducible form; see `qDiv_eq`. -/
def qDiv (a b : ℚ) : ℚ := Rat.divInt (a.num * (b.den : ℤ)) ((a.den : ℤ) * b.num)

/-- `⌊a⌋` on `ℚ`, kernel-reducible form; see `qFloor_eq`. -/
def qFloor (a : ℚ) : ℤ := a.num / (a.den : ℤ)

/-- `(2 : ℚ) ^ (k : ℤ)`, kernel-reducible form; see `qPow2_eq`. -/
def qPow2 (k : ℤ) : ℚ :=
  if 0 ≤ k then Rat.divInt (2 ^ k.toNat) 1 else Rat.divInt 1 (2 ^ (-k).toNat)

theorem num_eq_self_mul_den (a : ℚ) : (a.num : ℚ) = a * (a.den : ℚ) := by
  have hden : (a.den : ℚ) ≠ 0 := Nat.cast_ne_zero.mpr a.den_nz
  have h := Rat.num_div_den a
  rwa [div_eq_iff hden] at h

theorem qMul_eq (a b : ℚ) : qMul a b = a * b := by
  have hdena : (a.den : ℚ) ≠ 0 := Nat.cast_ne_zero.mpr a.den_nz
  have hdenb : (b.den : ℚ) ≠ 0 := Nat.cast_ne_zero.mpr b.den_nz
  rw [qMul, Rat.divInt_eq_div]
  push_cast
  rw [div_eq_iff (mul_ne_zero hdena hdenb), num_eq_self_mul_den, num_eq_self_mul_den]
  ring

theorem qSub_eq (a b : ℚ) : qSub a b = a - b := by
  have hdena : (a.den : ℚ) ≠ 0 := Nat.cast_ne_zero.mpr a.den_nz
  have hdenb : (b.den : ℚ) ≠ 0 := Nat.cast_ne_zero.mpr b.den_nz
  rw [qSub, Rat.divInt_eq_div]
  push_cast
  rw [div_eq_iff (mul_ne_zero hdena hdenb), num_eq_self_mul_den, num_eq_self_mul_den]
  ring

theorem qDiv_eq (a b : ℚ) : qDiv a b = a / b := by
  rcases eq_or_ne b 0 with rfl | hb
  · simp [qDiv, Rat.divInt_eq_div]
  · have hdena : (a.den : ℚ) ≠ 0 := Nat.cast_ne_zero.mpr a.den_nz
    have hbn : (b.num : ℚ) ≠ 0 := by
      exact_mod_cast fun h => hb (Rat.zero_iff_num_zero.mpr (by exact_mod_cast h))
    rw [qDiv, Rat.divInt_eq_div]
    push_cast
    rw [div_eq_div_iff (mul_ne_zero hdena hbn) hb, num_eq_self_mul_den,
      num_eq_self_mul_den b]
    ring

theorem qFloor_eq (a : ℚ) : qFloor a = ⌊a⌋ := Rat.floor_def.symm

theorem qPow2_eq (k : ℤ) : qPow2 k = (2 : ℚ) ^ k := by
  rcases le_or_lt 0 k with h | h
  · rw [qPow2, if_pos h, Rat.divInt_eq_div]
    push_cast
    rw [div_one, ← zpow_natCast, Int.toNat_of_nonneg h]
  · rw [qPow2, if_neg (not_le.mpr h), Rat.divInt_eq_div]
    push_cast
    rw [one_div, ← zpow_natCast, Int.toNat_of_nonneg (by omega : (0 : ℤ) ≤ -k),
      ← zpow_neg, neg_neg]

/-- Fuel-based `⌊log₂ n⌋` (0 for `n = 0` or `1`). -/
def log2F : Nat → Nat → Nat
  | 0, _ => 0
  | fuel + 1, n => if 2 ≤ n then log2F fuel (n / 2) + 1 else 0

/-- Fuel-based `⌈log₂ n⌉` (0 for `n ≤ 1`). -/
def clog2F : Nat → Nat → Nat
  | 0, _ => 0
  | fuel + 1, n => if n ≤ 1 then 0 else clog2F fuel ((n + 1) / 2) + 1

/-- `⌊log₂ q⌋` for a positive rational, used to locate the binade.
For `0 < q < 1` this is `-⌈log₂ q⁻¹⌉` with `⌈q⁻¹⌉ = (den + num - 1) / num`. -/
def floorLog2 (q : ℚ) : ℤ :=
  if 1 ≤ q then (log2F 100 (qFloor q).toNat : ℤ)
  else -(clog2F 100 (((q.den : ℤ) + q.num - 1) / q.num).toNat : ℤ)

/-- Round a rational to the nearest integer, ties to even. -/
def roundNearestEven (m : ℚ) : ℤ :=
  let f := qFloor m
  let r := qSub m (Rat.divInt f 1)
  if r < Rat.divInt 1 2 then f
  else if Rat.divInt 1 2 < r then f + 1
  else if f % 2 = 0 then f else f + 1

/-- Round a nonnegative rational to the nearest IEEE-754 binary64 value
(53-bit significand, round to nearest, ties to even; overflow and
subnormals do not arise in this development's range). -/
def roundDouble (q : ℚ) : ℚ :=
  if q ≤ 0 then 0
  else
    let e : ℤ := floorLog2 q
    qMul (Rat.divInt (roundNearestEven (qMul q (qPow2 (52 - e)))) 1) (qPow2 (e - 52))

/-- The binary64 value denoted by a nonnegative decimal literal. -/
def pyFloatLit (q : ℚ) : ℚ := roundDouble q

/-- Python `x % y` on nonnegative floats: the exact remainder (which is
always representable, hence computed exactly by the hardware). -/
def pyFmod (x y : ℚ) : ℚ := qSub x (qMul y (Rat.divInt (qFloor (qDiv x y)) 1))

/-! ### Decimal rendering and zero-padding (`f"{n:02d}"`, `f"{n:03d}"`) -/

/-- Digit accumulation for decimal rendering of a natural number. -/
def toDigitsAux : Nat → Nat → List Char → List Char
  | 0, _, acc => acc
  | fuel + 1, n, acc =>
      let d := Nat.digitChar (n % 10)
      if n < 10 then d :: acc else toDigitsAux fuel (n / 10) (d :: acc)

/-- Decimal rendering of a natural number (Python `str(n)` for `n ≥ 0`). -/
def natRepr (n : Nat) : String := String.mk (toDigitsAux (n + 1) n [])

/-- `f"{n:02d}"` for nonnegative `n`: zero-pad to two digits. -/
def pad2 (n : ℤ) : String :=
  let s := natRepr n.toNat
  String.mk (List.replicate (2 - s.length) '0') ++ s

/-- `f"{n:03d}"` for nonnegative `n`: zero-pad to three digits. -/
def pad3 (n : ℤ) : String :=
  let s := natRepr n.toNat
  String.mk (List.replicate (3 - s.length) '0') ++ s

/-- `format_timestamp` (`create_srt.py` lines 4–10): convert a seconds
value (a binary64 float, here its exact rational denotation) to the SRT
timestamp `HH:MM:SS,mmm`.  `int()` truncation coincides with `⌊·⌋` on the
nonnegative values involved; the only inexact float operation is the
multiplication by 1000, modelled with `roundDouble`. -/
def format_timestamp (seconds : ℚ) : String :=
  let hours : ℤ := qFloor (qDiv seconds 3600)
  let minutes : ℤ := qFloor (qDiv (pyFmod seconds 3600) 60)
  let secs : ℤ := qFloor (pyFmod seconds 60)
  let millis : ℤ := qFloor (roundDouble (qMul (pyFmod seconds 1) 1000))
  pad2 hours ++ ":" ++ pad2 minutes ++ ":" ++ pad2 secs ++ "," ++ pad3 millis

/-- Counterexample to claim C6 as stated: the binary64 double nearest the
literal `3661.2` is `4025531971613491 × 2⁻⁴⁰ = 3661.19999999999981…`, so
`(seconds % 1) * 1000` evaluates to `199.99999999998181…` and `int()`
truncation yields millisecond component `199`, not the claimed `200`. -/
theorem format_timestamp_3661_2_ne_claimed :
    format_timestamp (pyFloatLit (Rat.divInt 18306 5)) ≠ "01:01:01,200" := by decide

set_option maxRecDepth 4000 in
/-- Claim C6 (amended): timestamp formatting is zero-padded `HH:MM:SS,mmm`
with the millisecond component obtained by truncation, not rounding:
`format_timestamp(1.4995) = "00:00:01,499"`, and — because the double
nearest `3661.2` lies slightly below it — `format_timestamp(3661.2) =
"01:01:01,199"` (not `"01:01:01,200"`). -/
theorem format_timestamp_truncates :
    format_timestamp (pyFloatLit (Rat.divInt 2999 2000)) = "00:00:01,499" ∧
    format_timestamp (pyFloatLit (Rat.divInt 18306 5)) = "01:01:01,199" := by
  constructor <;> decide

/-! ### String helpers shared by the cue pipeline

Python string primitives are re-implemented over `List Char` (rather than
through Lean's iterator-based `String` API) so that every function
kernel-reduces and is easy to reason about.  They agree with the Python
semantics on the ASCII inputs this development evaluates. -/

/-- Python whitespace test (`str.split`, `str.strip`, `int()` trimming). -/
def pyWs (c : Char) : Bool :=
  c == ' ' || c == '\t' || c == '\n' || c == '\r' || c == '\x0b' || c == '\x0c'

/-- Python `s.strip()`. -/
def pyStrip (s : String) : String :=
  String.mk (((s.data.dropWhile pyWs).reverse.dropWhile pyWs).reverse)

/-- Python `s.split()` (split on whitespace runs, no empty fields). -/
def pySplit (s : String) : List String :=
  ((s.data.splitOnP pyWs).filter (fun w => ¬w.isEmpty)).map String.mk

/-- Python `" ".join(l)`. -/
def joinSpace (l : List String) : String :=
  String.mk (List.intercalate [' '] (l.map String.data))

/-- Python `" ".join(s.split())`: collapse whitespace runs to single
spaces and strip the ends. -/
def collapseWs (s : String) : String := joinSpace (pySplit s)

/-- Python `s.upper()` (on ASCII it agrees with `Char.toUpper`). -/
def pyUpper (s : String) : String := String.mk (s.data.map Char.toUpper)

/-- Python `s.isdigit()`: nonempty and all digits. -/
def pyIsdigit (s : String) : Bool := ¬s.data.isEmpty && s.data.all Char.isDigit

/-- Python `int(s)` for a decimal integer string: optional surrounding
whitespace, optional sign, then at least one digit (`none` models the
`ValueError` raised otherwise; digit-grouping underscores are not
modelled). -/
def pyInt (s : String) : Option ℤ :=
  match (s.data.dropWhile pyWs).reverse.dropWhile pyWs |>.reverse with
  | [] => none
  | c :: rest =>
      let sgn : ℤ := if c = '-' then -1 else 1
      let ds : List Char := if c = '-' ∨ c = '+' then rest else c :: rest
      if ds ≠ [] ∧ ds.all Char.isDigit then
        some (sgn * ds.foldl (fun a d => a * 10 + ((d.toNat : ℤ) - 48)) 0)
      else none

/-! ### Cue generator (`create_srt.py`)

A caller-supplied word record is an untrusted dict; the fields the
pipeline reads (`'start'`, `'end'`, `'text'`, and the `'word'` key touched
by the orchestrator's sanitize pass) are modelled as optional values,
`none` meaning the key is absent.  Times are the exact rational
denotations of the binary64 floats involved.  A generated SRT file is
modelled as its list of lines (each `f.write` of `"X\n"` contributes the
line `X`; cue texts containing a newline would split further in the real
file, which the line-level theorems exclude by hypothesis).  A raised
exception is an `Except.error`. -/

/-- Python exception kinds raised by the cue generator. -/
inductive PyErr where
  | typeError
  | valueError
  deriving DecidableEq, Repr

/-- A word record (dict) from the caller. -/
structure Word where
  start : Option ℚ
  «end» : Option ℚ
  text : Option String
  word : Option String
  deriving DecidableEq, Repr

/-- The `words_per_line` argument: Python `int` or `str`. -/
inductive WplArg where
  | int (n : ℤ)
  | str (s : String)
  deriving DecidableEq, Repr

/-- `words[i:i+k]` chunking (`range(0, len(words), k)` with `k > 0`),
fuel-based so that it kernel-reduces; fuel `l.length` suffices. -/
def chunkListAux (k : Nat) : Nat → List Word → List (List Word)
  | 0, _ => []
  | _, [] => []
  | fuel + 1, l => l.take k :: chunkListAux k fuel (l.drop k)

/-- Partition into consecutive chunks of size `k` (last may be shorter). -/
def chunkList (l : List Word) (k : Nat) : List (List Word) :=
  chunkListAux k l.length l

/-- The timestamp-range line `f"{format_timestamp(a)} --> {format_timestamp(b)}"`. -/
def tsLine (a b : ℚ) : String :=
  format_timestamp a ++ " --> " ++ format_timestamp b

/-- Lines a single grouped cue contributes to the file:
index, timestamp range, text, blank separator. -/
def cueLines (idx : Nat) (a b : ℚ) (text : String) : List String :=
  [natRepr idx, tsLine a b, text, ""]

/-- The per-chunk loop of `create_srt_from_words` (`create_srt.py`
lines 29–54): validates `chunk[0]['start']`, `chunk[-1]['end']`,
`chunk[0]['text']`, assembles the cue text with `word.get('text', '')`,
applies `all_caps`, and appends the cue's lines.  Returns the emitted
lines and the final cue count. -/
def create_srt_go (all_caps : Bool) :
    List (List Word) → Nat → List String → Except PyErr (List String × Nat)
  | [], idx, acc => .ok (acc, idx - 1)
  | chunk :: rest, idx, acc =>
      match chunk with
      | [] => create_srt_go all_caps rest idx acc
      | w0 :: _ =>
          if w0.start = none ∨ (chunk.getLastD w0).«end» = none ∨ w0.text = none then
            .error .valueError
          else
            let start_time := w0.start.getD 0
            let end_time := (chunk.getLastD w0).«end».getD 0
            let text0 := joinSpace (chunk.map (fun w => w.text.getD ""))
            let text := if all_caps then pyUpper text0 else text0
            create_srt_go all_caps rest (idx + 1) (acc ++ cueLines idx start_time end_time text)

/-- `create_srt_from_words` (`create_srt.py` lines 12–57): empty-list
check, `words_per_line` string-to-int coercion (`int()`), then the
chunked cue loop.  `words_per_line = 0` models the `ValueError` raised by
`range()` for a zero step; a negative value makes the loop body
unreachable (empty `range`), emitting nothing. -/
def create_srt_from_words (words : List Word) (words_per_line : WplArg)
    (all_caps : Bool) : Except PyErr (List String × Nat) :=
  if words = [] then .error .valueError
  else
    match words_per_line with
    | .str s =>
        match pyInt s with
        | none => .error .valueError
        | some n =>
            if n = 0 then .error .valueError
            else if n < 0 then .ok ([], 0)
            else create_srt_go all_caps (chunkList words n.toNat) 1 []
    | .int n =>
        if n = 0 then .error .valueError
        else if n < 0 then .ok ([], 0)
        else create_srt_go all_caps (chunkList words n.toNat) 1 []

/-- The per-word loop of `create_word_by_word_srt` (`create_srt.py`
lines 69–88): every word must carry all three fields. -/
def create_word_by_word_go (all_caps : Bool) :
    List Word → Nat → List String → Except PyErr (List String)
  | [], _, acc => .ok acc
  | w :: rest, i, acc =>
      if w.start = none ∨ w.«end» = none ∨ w.text = none then .error .valueError
      else
        let text0 := w.text.getD ""
        let text := if all_caps then pyUpper text0 else text0
        create_word_by_word_go all_caps rest (i + 1)
          (acc ++ cueLines i (w.start.getD 0) (w.«end».getD 0) text)

/-- `create_word_by_word_srt` (`create_srt.py` lines 59–91): one cue per
word, returning the emitted lines and `len(words)`. -/
def create_word_by_word_srt (words : List Word) (all_caps : Bool) :
    Except PyErr (List String × Nat) :=
  if words = [] then .error .valueError
  else
    match create_word_by_word_go all_caps words 1 [] with
    | .error e => .error e
    | .ok lines => .ok (lines, words.length)

instance {ε α : Type} [DecidableEq ε] [DecidableEq α] : DecidableEq (Except ε α)
  | .error e, .error f => decidable_of_iff (e = f) (by simp)
  | .error _, .ok _ => isFalse (by simp)
  | .ok _, .error _ => isFalse (by simp)
  | .ok a, .ok b => decidable_of_iff (a = b) (by simp)

/-- A word for which one of the checked fields is absent. -/
def Word.missingField (w : Word) : Prop :=
  w.start = none ∨ w.«end» = none ∨ w.text = none

instance (w : Word) : Decidable w.missingField := by
  unfold Word.missingField; infer_instance

/-- In word-by-word mode any word with a missing field aborts the loop
with a `ValueError`, regardless of cursor and accumulator. -/
theorem create_word_by_word_go_error (ac : Bool) :
    ∀ (words : List Word) (i : Nat) (acc : List String),
      (∃ w ∈ words, w.missingField) →
      create_word_by_word_go ac words i acc = .error .valueError := by
  intro words
  induction words with
  | nil => intro i acc h; simp at h
  | cons w rest ih =>
      intro i acc h
      by_cases hw : w.missingField
      · simp only [create_word_by_word_go, Word.missingField] at hw ⊢
        rw [if_pos hw]
      · have : ∃ v ∈ rest, v.missingField := by
          rcases h with ⟨v, hv, hvm⟩
          rcases List.mem_cons.mp hv with rfl | hv'
          · exact absurd hvm hw
          · exact ⟨v, hv', hvm⟩
        simp only [create_word_by_word_go, Word.missingField] at hw ⊢
        rw [if_neg hw]
        exact ih _ _ this

/-- The validation actually performed by a grouped chunk: the first word's
`start` and `text`, and the last word's `end`. -/
def chunkBad (chunk : List Word) : Prop :=
  ∃ w0, chunk.head? = some w0 ∧
    (w0.start = none ∨ (chunk.getLastD w0).«end» = none ∨ w0.text = none)

instance (chunk : List Word) : Decidable (chunkBad chunk) := by
  unfold chunkBad
  cases chunk <;> simp <;> infer_instance

/-- The grouped loop raises a `ValueError` exactly when some chunk fails
the positional check. -/
theorem create_srt_go_error_iff (ac : Bool) :
    ∀ (chunks : List (List Word)) (idx : Nat) (acc : List String),
      (create_srt_go ac chunks idx acc = .error .valueError ↔
        ∃ chunk ∈ chunks, chunkBad chunk) := by
  intro chunks
  induction chunks with
  | nil => intro idx acc; simp [create_srt_go]
  | cons chunk rest ih =>
      intro idx acc
      match chunk with
      | [] =>
          simp only [create_srt_go, List.mem_cons]
          rw [ih]
          constructor
          · rintro ⟨c, hc, hbad⟩; exact ⟨c, Or.inr hc, hbad⟩
          · rintro ⟨c, rfl | hc, hbad⟩
            · rcases hbad with ⟨w0, hw0, _⟩; simp at hw0
            · exact ⟨c, hc, hbad⟩
      | w0 :: tl =>
          by_cases hbad : w0.start = none ∨ ((w0 :: tl).getLastD w0).«end» = none ∨
              w0.text = none
          · simp only [create_srt_go]
            rw [if_pos hbad]
            simp only [List.mem_cons, true_iff]
            exact ⟨w0 :: tl, Or.inl rfl, w0, rfl, hbad⟩
          · simp only [create_srt_go]
            rw [if_neg hbad, ih]
            constructor
            · rintro ⟨c, hc, hb⟩; exact ⟨c, List.mem_cons_of_mem _ hc, hb⟩
            · rintro ⟨c, hc, hb⟩
              rcases List.mem_cons.mp hc with rfl | hc'
              · rcases hb with ⟨v, hv, hvb⟩
                simp only [List.head?_cons, Option.some.injEq] at hv
                subst hv
                exact absurd hvb hbad
              · exact ⟨c, hc', hb⟩

/-- Counterexample to claim C3 as stated: in grouped mode with
`words_per_line = 2`, the batch `[{start 0, end 1, text "hi"},
{start 2, end 3}]` — whose second word lacks a `text` field — is *not*
rejected: the positional check only inspects the chunk's first word for
`start`/`text` and its last word for `end`, and the missing text is
silently replaced by `''` (yielding cue text `"hi "`). -/
theorem create_srt_accepts_missing_middle_text :
    create_srt_from_words
        [⟨some 0, some 1, some "hi", none⟩, ⟨some 2, some 3, none, none⟩]
        (.int 2) false =
      .ok (["1", "00:00:00,000 --> 00:00:03,000", "hi ", ""], 1) := by decide

/-- Claim C3 (amended): in word-by-word mode, a batch containing any word
that lacks a `start`, `end` or `text` field is rejected with a
`ValueError`; in grouped mode (positive `words_per_line`, non-empty
batch), the batch is rejected with a `ValueError` exactly when some chunk
fails the positional check the code performs — first word of the chunk
missing `start` or `text`, or last word of the chunk missing `end`. -/
theorem cue_generator_validation :
    (∀ (words : List Word) (ac : Bool),
        (∃ w ∈ words, w.missingField) →
        create_word_by_word_srt words ac = .error .valueError) ∧
    (∀ (words : List Word) (n : ℤ) (ac : Bool), 0 < n → words ≠ [] →
        (create_srt_from_words words (.int n) ac = .error .valueError ↔
          ∃ chunk ∈ chunkList words n.toNat, chunkBad chunk)) := by
  constructor
  · intro words ac h
    have hne : words ≠ [] := by
      rcases h with ⟨w, hw, _⟩
      exact List.ne_nil_of_mem hw
    simp only [create_word_by_word_srt, if_neg hne]
    rw [create_word_by_word_go_error ac words 1 [] h]
  · intro words n ac hn hne
    simp only [create_srt_from_words, if_neg hne]
    rw [if_neg (by omega : ¬n = 0), if_neg (by omega : ¬n < 0)]
    exact create_srt_go_error_iff ac (chunkList words n.toNat) 1 []

/-- Witness for `cue_generator_validation` at concrete inputs: a
word-by-word batch whose second word lacks `end`, and a grouped batch
whose (single) chunk's first word lacks `start`. -/
theorem cue_generator_validation_witness :
    create_word_by_word_srt
        [⟨some 0, some 1, some "a", none⟩, ⟨some 2, none, some "b", none⟩] false =
      .error .valueError ∧
    (create_srt_from_words [⟨none, some 1, some "a", none⟩] (.int 3) true =
        .error .valueError ↔
      ∃ chunk ∈ chunkList [⟨none, some 1, some "a", none⟩] (3 : ℤ).toNat,
        chunkBad chunk) := by
  constructor
  · exact cue_generator_validation.1 _ false
      ⟨⟨some 2, none, some "b", none⟩, by simp, by simp [Word.missingField]⟩
  · exact cue_generator_validation.2 [⟨none, some 1, some "a", none⟩] 3 true
      (by norm_num) (by simp)

/-- Claim C10: `words_per_line` supplied as a decimal integer string is
converted with `int()` before any cue is written, so on a non-empty word
list the result is identical to calling with the corresponding integer;
a non-numeric string raises a `ValueError` (the conversion sits before
the `open()` call, so nothing is emitted). -/
theorem words_per_line_string_coercion :
    (∀ (s : String) (n : ℤ) (words : List Word) (ac : Bool),
        pyInt s = some n → words ≠ [] →
        create_srt_from_words words (.str s) ac =
          create_srt_from_words words (.int n) ac) ∧
    (∀ (s : String) (words : List Word) (ac : Bool),
        pyInt s = none → words ≠ [] →
        create_srt_from_words words (.str s) ac = .error .valueError) := by
  constructor
  · intro s n words ac h hne
    simp [create_srt_from_words, if_neg hne, h]
  · intro s words ac h hne
    simp [create_srt_from_words, if_neg hne, h]

/-- Witness for `words_per_line_string_coercion`: `"2"` parses to `2` and
gives the same cues; `"two"` does not parse and raises. -/
theorem words_per_line_string_coercion_witness :
    create_srt_from_words [⟨some 0, some 1, some "a", none⟩] (.str "2") false =
      create_srt_from_words [⟨some 0, some 1, some "a", none⟩] (.int 2) false ∧
    create_srt_from_words [⟨some 0, some 1, some "a", none⟩] (.str "two") false =
      .error .valueError :=
  ⟨words_per_line_string_coercion.1 "2" 2 [⟨some 0, some 1, some "a", none⟩] false
      (by decide) (by simp),
    words_per_line_string_coercion.2 "two" [⟨some 0, some 1, some "a", none⟩] false
      (by decide) (by simp)⟩

/-! ### Orchestrator cue post-processing (`app.py`)

`process_burn_captions` sanitizes the incoming word list (lines 183–187)
and, after the SRT file is written, applies the "thin space patch"
(lines 227–241) line by line. -/

/-- The sanitize pass of `process_burn_captions` (`app.py` lines 184–187):
for every word dict that has a `'word'` key, collapse whitespace runs in
that value (`" ".join(word_obj['word'].split())`).  Dicts without a
`'word'` key — in particular those carrying only the `'text'` key the cue
generator reads — are left untouched. -/
def sanitize_words (words : List Word) : List Word :=
  words.map fun w =>
    match w.word with
    | some s => { w with word := some (collapseWs s) }
    | none => w

/-- The line classification of the thin-space patch (`app.py` line 234):
`'-->' in line or (line.strip().isdigit() and len(line.strip()) < 5)`. -/
def thinSpaceKeep (line : String) : Bool :=
  decide ("-->".data <:+: line.data) ||
    (pyIsdigit (pyStrip line) && decide ((pyStrip line).data.length < 5))

/-- `line.replace(' ', ' ')`: every space becomes U+2009 (thin
space); all other characters are untouched. -/
def replaceSpaceThin (line : String) : String :=
  String.mk (line.data.map fun c => if c = ' ' then '\u2009' else c)

/-- One line of the thin-space patch (`app.py` lines 233–237). -/
def thinSpacePatchLine (line : String) : String :=
  if thinSpaceKeep line then line else replaceSpaceThin line

/-- The thin-space patch over the whole SRT file, given as its lines
(`app.py` lines 228–240). -/
def thinSpacePatch (lines : List String) : List String :=
  lines.map thinSpacePatchLine

/-- Claim C4 (exhibiting the code bug): the sanitize pass rewrites only
the `'word'` key, which the cue generator never reads; the `'text'` field
— the text that becomes cue text — passes through unmodified, so a
whitespace run inside it survives into the emitted cue.  At the failing
input `[{'start': 0, 'end': 1, 'text': "a  b"}]` the sanitize pass is the
identity and the generated cue text still contains the double space,
although `" ".join(text.split())` would have collapsed it. -/
theorem sanitize_words_misses_cue_text :
    (∀ ws : List Word, (sanitize_words ws).map Word.text = ws.map Word.text) ∧
    sanitize_words [⟨some 0, some 1, some "a  b", none⟩] =
      [⟨some 0, some 1, some "a  b", none⟩] ∧
    create_srt_from_words (sanitize_words [⟨some 0, some 1, some "a  b", none⟩])
        (.int 5) false =
      .ok (["1", "00:00:00,000 --> 00:00:01,000", "a  b", ""], 1) ∧
    collapseWs "a  b" = "a b" ∧ ("a  b" : String) ≠ "a b" := by
  refine ⟨?_, by decide, by decide, by decide, by decide⟩
  intro ws
  rw [sanitize_words, List.map_map]
  refine List.map_congr_left ?_
  intro w _
  cases h : w.word <;> simp [h, Function.comp]

/-! ### Line classification lemmas for the thin-space patch (claim C5) -/

theorem pyWs_false_of_isDigit {c : Char} (h : c.isDigit = true) : pyWs c = false := by
  have h1 : c ≠ ' ' := by rintro rfl; exact absurd h (by decide)
  have h2 : c ≠ '\t' := by rintro rfl; exact absurd h (by decide)
  have h3 : c ≠ '\n' := by rintro rfl; exact absurd h (by decide)
  have h4 : c ≠ '\r' := by rintro rfl; exact absurd h (by decide)
  have h5 : c ≠ '\x0b' := by rintro rfl; exact absurd h (by decide)
  have h6 : c ≠ '\x0c' := by rintro rfl; exact absurd h (by decide)
  simp [pyWs, h1, h2, h3, h4, h5, h6]

theorem digitChar_isDigit {n : Nat} (h : n < 10) : (Nat.digitChar n).isDigit = true := by
  interval_cases n <;> decide

theorem toDigitsAux_all_digits :
    ∀ (fuel n : Nat) (acc : List Char), (∀ c ∈ acc, c.isDigit = true) →
      ∀ c ∈ toDigitsAux fuel n acc, c.isDigit = true := by
  intro fuel
  induction fuel with
  | zero => intro n acc hacc; exact hacc
  | succ fuel ih =>
      intro n acc hacc c hc
      have hd : (Nat.digitChar (n % 10)).isDigit = true :=
        digitChar_isDigit (Nat.mod_lt _ (by norm_num))
      have hacc' : ∀ c ∈ Nat.digitChar (n % 10) :: acc, c.isDigit = true := by
        intro c hc
        rcases List.mem_cons.mp hc with rfl | hc'
        · exact hd
        · exact hacc c hc'
      simp only [toDigitsAux] at hc
      by_cases hlt : n < 10
      · rw [if_pos hlt] at hc
        exact hacc' c hc
      · rw [if_neg hlt] at hc
        exact ih (n / 10) _ hacc' c hc

theorem toDigitsAux_ne_nil_of_acc :
    ∀ (fuel n : Nat) (acc : List Char), acc ≠ [] → toDigitsAux fuel n acc ≠ [] := by
  intro fuel
  induction fuel with
  | zero => intro n acc h; exact h
  | succ fuel ih =>
      intro n acc h
      simp only [toDigitsAux]
      by_cases hlt : n < 10
      · rw [if_pos hlt]; exact List.cons_ne_nil _ _
      · rw [if_neg hlt]; exact ih (n / 10) _ (List.cons_ne_nil _ _)

theorem natRepr_all_digits (n : Nat) : ∀ c ∈ (natRepr n).data, c.isDigit = true := by
  intro c hc
  exact toDigitsAux_all_digits (n + 1) n [] (by simp) c hc

theorem natRepr_ne_empty (n : Nat) : (natRepr n).data ≠ [] := by
  show toDigitsAux (n + 1) n [] ≠ []
  simp only [toDigitsAux]
  by_cases hlt : n < 10
  · rw [if_pos hlt]; exact List.cons_ne_nil _ _
  · rw [if_neg hlt]; exact toDigitsAux_ne_nil_of_acc n _ _ (List.cons_ne_nil _ _)

theorem dropWhile_pyWs_eq_self {l : List Char} (h : ∀ c ∈ l, pyWs c = false) :
    l.dropWhile pyWs = l := by
  cases l with
  | nil => rfl
  | cons c t =>
      rw [List.dropWhile_cons, if_neg]
      simp [h c (List.mem_cons_self c t)]

theorem pyStrip_of_all_digits {s : String} (h : ∀ c ∈ s.data, c.isDigit = true) :
    pyStrip s = s := by
  have hws : ∀ c ∈ s.data, pyWs c = false := fun c hc => pyWs_false_of_isDigit (h c hc)
  have h1 : s.data.dropWhile pyWs = s.data := dropWhile_pyWs_eq_self hws
  have hws' : ∀ c ∈ s.data.reverse, pyWs c = false := by
    intro c hc; exact hws c (List.mem_reverse.mp hc)
  rw [pyStrip, h1, dropWhile_pyWs_eq_self hws', List.reverse_reverse]

theorem pyIsdigit_of_all_digits {s : String} (hne : s.data ≠ [])
    (h : ∀ c ∈ s.data, c.isDigit = true) : pyIsdigit s = true := by
  simp only [pyIsdigit, Bool.and_eq_true, List.all_eq_true]
  exact ⟨by simpa [List.isEmpty_iff] using hne, h⟩

theorem replaceSpaceThin_of_no_space {s : String}
    (h : ∀ c ∈ s.data, c ≠ ' ') : replaceSpaceThin s = s := by
  rw [replaceSpaceThin]
  have : s.data.map (fun c => if c = ' ' then '\u2009' else c) = s.data := by
    rw [List.map_congr_left (fun c hc => if_neg (h c hc))]
    exact List.map_id _
  rw [this]

/-- Index lines pass the patch unchanged: a short index is recognized by
the digit test and kept verbatim, a 5-or-more digit index falls through to
the replacement branch, which does nothing as digits contain no space. -/
theorem thinSpacePatchLine_natRepr (n : Nat) :
    thinSpacePatchLine (natRepr n) = natRepr n := by
  rw [thinSpacePatchLine]
  by_cases hk : thinSpaceKeep (natRepr n) = true
  · rw [if_pos hk]
  · rw [if_neg hk]
    refine replaceSpaceThin_of_no_space ?_
    intro c hc
    have hd := natRepr_all_digits n c hc
    intro h
    subst h
    exact absurd hd (by decide)

/-- Timestamp-range lines contain `-->` and are kept verbatim. -/
theorem thinSpacePatchLine_tsLine (a b : ℚ) :
    thinSpacePatchLine (tsLine a b) = tsLine a b := by
  have hinf : "-->".data <:+: (tsLine a b).data := by
    refine ⟨(format_timestamp a).data ++ [' '], [' '] ++ (format_timestamp b).data, ?_⟩
    show _ = (format_timestamp a ++ " --> " ++ format_timestamp b).data
    rw [String.data_append, String.data_append]
    simp
  rw [thinSpacePatchLine, if_pos]
  rw [thinSpaceKeep, Bool.or_eq_true]
  exact Or.inl (decide_eq_true hinf)

theorem thinSpacePatchLine_blank : thinSpacePatchLine "" = "" := by decide

/-- Per-cue action of the patch: only the text slot can change. -/
theorem thinSpacePatch_cueLines (idx : Nat) (a b : ℚ) (text : String) :
    thinSpacePatch (cueLines idx a b text) =
      cueLines idx a b (thinSpacePatchLine text) := by
  simp only [thinSpacePatch, cueLines, List.map_cons, List.map_nil,
    thinSpacePatchLine_natRepr, thinSpacePatchLine_tsLine, thinSpacePatchLine_blank]

/-- Every successful run of the grouped cue loop appends a sequence of
four-line cue blocks to the accumulator. -/
theorem create_srt_go_shape (ac : Bool) :
    ∀ (chunks : List (List Word)) (idx : Nat) (acc lines : List String) (cnt : Nat),
      create_srt_go ac chunks idx acc = .ok (lines, cnt) →
      ∃ cues : List (Nat × ℚ × ℚ × String),
        lines = acc ++ (cues.map fun c => cueLines c.1 c.2.1 c.2.2.1 c.2.2.2).join := by
  intro chunks
  induction chunks with
  | nil =>
      intro idx acc lines cnt h
      simp only [create_srt_go, Except.ok.injEq, Prod.mk.injEq] at h
      refine ⟨[], ?_⟩
      rw [← h.1]
      simp
  | cons chunk rest ih =>
      intro idx acc lines cnt h
      cases chunk with
      | nil => exact ih _ _ _ _ (by simpa [create_srt_go] using h)
      | cons w0 tl =>
          simp only [create_srt_go] at h
          by_cases hbad : w0.start = none ∨ ((w0 :: tl).getLastD w0).«end» = none ∨
              w0.text = none
          · rw [if_pos hbad] at h
            exact absurd h (by simp)
          · rw [if_neg hbad] at h
            obtain ⟨cues, hc⟩ := ih _ _ _ _ h
            refine ⟨(idx, w0.start.getD 0, ((w0 :: tl).getLastD w0).«end».getD 0,
              if ac then pyUpper (joinSpace ((w0 :: tl).map fun w => w.text.getD ""))
              else joinSpace ((w0 :: tl).map fun w => w.text.getD "")) :: cues, ?_⟩
            rw [hc]
            simp [List.append_assoc]

/-- Every successful run of the word-by-word loop appends a sequence of
four-line cue blocks to the accumulator. -/
theorem create_word_by_word_go_shape (ac : Bool) :
    ∀ (ws : List Word) (i : Nat) (acc lines : List String),
      create_word_by_word_go ac ws i acc = .ok lines →
      ∃ cues : List (Nat × ℚ × ℚ × String),
        lines = acc ++ (cues.map fun c => cueLines c.1 c.2.1 c.2.2.1 c.2.2.2).join := by
  intro ws
  induction ws with
  | nil =>
      intro i acc lines h
      simp only [create_word_by_word_go, Except.ok.injEq] at h
      refine ⟨[], ?_⟩
      rw [← h]
      simp
  | cons w rest ih =>
      intro i acc lines h
      simp only [create_word_by_word_go] at h
      by_cases hbad : w.start = none ∨ w.«end» = none ∨ w.text = none
      · rw [if_pos hbad] at h
        exact absurd h (by simp)
      · rw [if_neg hbad] at h
        obtain ⟨cues, hc⟩ := ih _ _ _ h
        refine ⟨(i, w.start.getD 0, w.«end».getD 0,
          if ac then pyUpper (w.text.getD "") else w.text.getD "") :: cues, ?_⟩
        rw [hc]
        simp [List.append_assoc]

/-- The patch acts blockwise on a concatenation of cue blocks, touching
only the text slots. -/
theorem thinSpacePatch_join_cueLines (cues : List (Nat × ℚ × ℚ × String)) :
    thinSpacePatch ((cues.map fun c => cueLines c.1 c.2.1 c.2.2.1 c.2.2.2).join) =
      (cues.map fun c => cueLines c.1 c.2.1 c.2.2.1 (thinSpacePatchLine c.2.2.2)).join := by
  induction cues with
  | nil => rfl
  | cons c rest ih =>
      simp only [List.map_cons, List.join_cons]
      rw [thinSpacePatch, List.map_append]
      rw [show List.map thinSpacePatchLine (cueLines c.1 c.2.1 c.2.2.1 c.2.2.2) =
        thinSpacePatch (cueLines c.1 c.2.1 c.2.2.1 c.2.2.2) from rfl]
      rw [thinSpacePatch_cueLines]
      rw [show List.map thinSpacePatchLine
          ((rest.map fun c => cueLines c.1 c.2.1 c.2.2.1 c.2.2.2).join) =
        thinSpacePatch ((rest.map fun c => cueLines c.1 c.2.1 c.2.2.1 c.2.2.2).join)
        from rfl]
      rw [ih]

/-- Counterexample to claim C5 as stated: the batch
`[{start 0, end 1, text "x --> y"}]` generates a subtitle file whose
cue-text line contains `-->`; the patch therefore classifies that line as
a timestamp line and leaves its literal spaces unrewritten. -/
theorem thinSpacePatch_misses_arrow_cue_text :
    create_srt_from_words [⟨some 0, some 1, some "x --> y", none⟩] (.int 5) false =
      .ok (["1", "00:00:00,000 --> 00:00:01,000", "x --> y", ""], 1) ∧
    thinSpacePatch ["1", "00:00:00,000 --> 00:00:01,000", "x --> y", ""] =
      ["1", "00:00:00,000 --> 00:00:01,000", "x --> y", ""] ∧
    ' ' ∈ ("x --> y" : String).data :=
  ⟨by decide, by decide, by decide⟩

/-- Claim C5 (amended): on every generated subtitle file the thin-space
pass leaves every index line and every timestamp-range line (and the
blank separators) unchanged, and rewrites every literal space of every
cue-text line to U+2009 — except for cue-text lines the classifier
mistakes for structural lines, namely those containing `-->` or whose
stripped content is a digit string of fewer than 5 characters (such lines
are left unchanged; the digit-like ones contain no space in any case). -/
theorem thinSpacePatch_spec :
    (∀ (words : List Word) (arg : WplArg) (ac : Bool) (lines : List String) (cnt : Nat),
        create_srt_from_words words arg ac = .ok (lines, cnt) →
        ∃ cues : List (Nat × ℚ × ℚ × String),
          lines = (cues.map fun c => cueLines c.1 c.2.1 c.2.2.1 c.2.2.2).join ∧
          thinSpacePatch lines =
            (cues.map fun c =>
              cueLines c.1 c.2.1 c.2.2.1 (thinSpacePatchLine c.2.2.2)).join) ∧
    (∀ (words : List Word) (ac : Bool) (lines : List String) (cnt : Nat),
        create_word_by_word_srt words ac = .ok (lines, cnt) →
        ∃ cues : List (Nat × ℚ × ℚ × String),
          lines = (cues.map fun c => cueLines c.1 c.2.1 c.2.2.1 c.2.2.2).join ∧
          thinSpacePatch lines =
            (cues.map fun c =>
              cueLines c.1 c.2.1 c.2.2.1 (thinSpacePatchLine c.2.2.2)).join) ∧
    (∀ n : Nat, thinSpacePatchLine (natRepr n) = natRepr n) ∧
    (∀ a b : ℚ, thinSpacePatchLine (tsLine a b) = tsLine a b) ∧
    (∀ text : String, thinSpaceKeep text = false →
        (thinSpacePatchLine text).data =
          text.data.map fun c => if c = ' ' then ' ' else c) := by
  refine ⟨?_, ?_, thinSpacePatchLine_natRepr, thinSpacePatchLine_tsLine, ?_⟩
  · intro words arg ac lines cnt h
    have hgo : (∃ k idx₀, create_srt_go ac (chunkList words k) idx₀ [] =
        .ok (lines, cnt)) ∨ lines = [] := by
      cases arg with
      | int n =>
          simp only [create_srt_from_words] at h
          by_cases hne : words = []
          · rw [if_pos hne] at h; exact absurd h (by simp)
          · rw [if_neg hne] at h
            by_cases h0 : n = 0
            · rw [if_pos h0] at h; exact absurd h (by simp)
            · rw [if_neg h0] at h
              by_cases hneg : n < 0
              · rw [if_pos hneg] at h
                simp only [Except.ok.injEq, Prod.mk.injEq] at h
                exact Or.inr h.1.symm
              · rw [if_neg hneg] at h
                exact Or.inl ⟨n.toNat, 1, h⟩
      | str s =>
          simp only [create_srt_from_words] at h
          by_cases hne : words = []
          · rw [if_pos hne] at h; exact absurd h (by simp)
          · rw [if_neg hne] at h
            cases hp : pyInt s with
            | none => rw [hp] at h; exact absurd h (by simp)
            | some n =>
                simp only [hp] at h
                by_cases h0 : n = 0
                · rw [if_pos h0] at h; exact absurd h (by simp)
                · rw [if_neg h0] at h
                  by_cases hneg : n < 0
                  · rw [if_pos hneg] at h
                    simp only [Except.ok.injEq, Prod.mk.injEq] at h
                    exact Or.inr h.1.symm
                  · rw [if_neg hneg] at h
                    exact Or.inl ⟨n.toNat, 1, h⟩
    rcases hgo with ⟨k, idx₀, hgo⟩ | hnil
    · obtain ⟨cues, hc⟩ := create_srt_go_shape ac _ idx₀ [] lines cnt hgo
      refine ⟨cues, by simpa using hc, ?_⟩
      rw [hc]
      simp only [List.nil_append]
      exact thinSpacePatch_join_cueLines cues
    · exact ⟨[], by simp [hnil], by simp [hnil, thinSpacePatch]⟩
  · intro words ac lines cnt h
    simp only [create_word_by_word_srt] at h
    by_cases hne : words = []
    · rw [if_pos hne] at h; exact absurd h (by simp)
    · rw [if_neg hne] at h
      cases hgo : create_word_by_word_go ac words 1 [] with
      | error e => rw [hgo] at h; exact absurd h (by simp)
      | ok ls =>
          rw [hgo] at h
          simp only [Except.ok.injEq, Prod.mk.injEq] at h
          obtain ⟨cues, hc⟩ := create_word_by_word_go_shape ac words 1 [] ls hgo
          subst hc
          refine ⟨cues, by simpa using h.1.symm, ?_⟩
          rw [← h.1]
          simp only [List.nil_append]
          exact thinSpacePatch_join_cueLines cues
  · intro text hkeep
    rw [thinSpacePatchLine, if_neg (by simp [hkeep]), replaceSpaceThin]

/-- Witness for `thinSpacePatch_spec` on the concrete generation from the
single word `{start 0, end 1, text "a b"}`. -/
theorem thinSpacePatch_spec_witness :
    ∃ cues : List (Nat × ℚ × ℚ × String),
      ["1", "00:00:00,000 --> 00:00:01,000", "a b", ""] =
        (cues.map fun c => cueLines c.1 c.2.1 c.2.2.1 c.2.2.2).join ∧
      thinSpacePatch ["1", "00:00:00,000 --> 00:00:01,000", "a b", ""] =
        (cues.map fun c =>
          cueLines c.1 c.2.1 c.2.2.1 (thinSpacePatchLine c.2.2.2)).join :=
  thinSpacePatch_spec.1 [⟨some 0, some 1, some "a b", none⟩] (.int 5) false
    ["1", "00:00:00,000 --> 00:00:01,000", "a b", ""] 1 (by decide)

/-! ### Bounded stderr ring buffer (`app.py` lines 290–297, 317–325)

`process_burn_captions` streams ffmpeg's stderr line by line, keeping at
most 2048 characters' worth of whole lines (oldest dropped first), and on
a non-zero exit code reports `'Failed to burn captions: '` plus the first
200 characters of the retained tail. -/

/-- `sum(len(l) for l in stderr_buffer)`. -/
def bufferLen (buf : List String) : Nat := (buf.map String.length).sum

/-- The `while sum(...) > max_stderr_size: stderr_buffer.pop(0)` loop. -/
def trimBuffer : List String → List String
  | [] => []
  | l :: rest =>
      if bufferLen (l :: rest) > 2048 then trimBuffer rest else l :: rest

/-- Processing one stderr line: append, then trim from the front. -/
def processStderrLine (buf : List String) (line : String) : List String :=
  trimBuffer (buf ++ [line])

/-- The whole streaming loop over the diagnostic output. -/
def processStderr (lines : List String) : List String :=
  lines.foldl processStderrLine []

/-- `f'Failed to burn captions: {stderr_output[:200]}'` where
`stderr_output = ''.join(stderr_buffer)`. -/
def burnErrorMessage (buf : List String) : String :=
  String.mk ("Failed to burn captions: ".data ++ (String.join buf).data.take 200)

theorem bufferLen_trimBuffer_le : ∀ buf : List String, bufferLen (trimBuffer buf) ≤ 2048 := by
  intro buf
  induction buf with
  | nil => simp [trimBuffer, bufferLen]
  | cons l rest ih =>
      rw [trimBuffer]
      by_cases h : bufferLen (l :: rest) > 2048
      · rw [if_pos h]; exact ih
      · rw [if_neg h]; exact le_of_not_lt h

theorem trimBuffer_suffix : ∀ buf : List String, trimBuffer buf <:+ buf := by
  intro buf
  induction buf with
  | nil => exact List.suffix_refl _
  | cons l rest ih =>
      rw [trimBuffer]
      by_cases h : bufferLen (l :: rest) > 2048
      · rw [if_pos h]
        exact ih.trans (List.suffix_cons l rest)
      · rw [if_neg h]

theorem processStderr_foldl_len :
    ∀ (lines : List String) (buf : List String), bufferLen buf ≤ 2048 →
      bufferLen (List.foldl processStderrLine buf lines) ≤ 2048 := by
  intro lines
  induction lines with
  | nil => intro buf h; exact h
  | cons l ls ih =>
      intro buf _
      exact ih _ (bufferLen_trimBuffer_le _)

theorem processStderr_foldl_suffix :
    ∀ (lines : List String) (buf : List String),
      List.foldl processStderrLine buf lines <:+ buf ++ lines := by
  intro lines
  induction lines with
  | nil => intro buf; simp
  | cons l ls ih =>
      intro buf
      have h1 : List.foldl processStderrLine (processStderrLine buf l) ls <:+
          processStderrLine buf l ++ ls := ih _
      have h2 : processStderrLine buf l <:+ buf ++ [l] := trimBuffer_suffix _
      have h3 : processStderrLine buf l ++ ls <:+ (buf ++ [l]) ++ ls := by
        obtain ⟨t, ht⟩ := h2
        exact ⟨t, by rw [← List.append_assoc, ht]⟩
      have h4 : (buf ++ [l]) ++ ls = buf ++ (l :: ls) := by simp
      rw [List.foldl_cons]
      exact h1.trans (h4 ▸ h3)

/-- Claim C9: after any number of processed lines the retained buffer
holds at most 2048 characters; it is always a suffix of the lines seen so
far (whole oldest lines are dropped first); and the non-zero-exit error
message is the fixed prefix plus at most the first 200 characters of the
retained tail.  (The first two conjuncts quantify over all line lists, so
they bound the state after every intermediate line as well.) -/
theorem stderr_buffer_bounded :
    (∀ lines : List String, bufferLen (processStderr lines) ≤ 2048) ∧
    (∀ lines : List String, processStderr lines <:+ lines) ∧
    (∀ buf : List String, (burnErrorMessage buf).length ≤ 25 + 200) ∧
    (∀ buf : List String, (burnErrorMessage buf).data =
        "Failed to burn captions: ".data ++ (String.join buf).data.take 200) := by
  refine ⟨?_, ?_, ?_, fun _ => rfl⟩
  · intro lines
    exact processStderr_foldl_len lines [] (by simp [bufferLen])
  · intro lines
    simpa using processStderr_foldl_suffix lines []
  · intro buf
    show ("Failed to burn captions: ".data ++ (String.join buf).data.take 200).length ≤ 225
    rw [List.length_append]
    have h1 : ("Failed to burn captions: ".data).length = 25 := by decide
    have h2 : ((String.join buf).data.take 200).length ≤ 200 := by
      rw [List.length_take]; omega
    omega

/-! ### Job table and download endpoints (`app.py`)

The `processing_jobs` dict (keys unique by construction) is modelled as
an association list together with the set of files present in the scratch
directory.  `remove_silence_download` (`app.py` lines 539–599) and
`burn_captions_download` (lines 778–838) share the same logic, modelled
once with the endpoint's job type as a parameter; streaming a file runs
the `call_on_close` cleanup that deletes it. -/

/-- Job lifecycle states. -/
inductive JobStatus where
  | pending
  | processing
  | completed
  | no_silence
  | error
  deriving DecidableEq, Repr

/-- `job_type`: `'remove-silence'` or `'burn-captions'`. -/
inductive JobType where
  | removeSilence
  | burnCaptions
  deriving DecidableEq, Repr

/-- The fields of a `processing_jobs` record that the download and
eviction paths read. -/
structure Job where
  status : JobStatus
  job_type : JobType
  created_at : ℚ
  completed_at : Option ℚ
  output_path : Option String
  deriving DecidableEq, Repr

/-- The server's mutable state: the job table (insertion-ordered, unique
keys) and the scratch-directory files. -/
structure ServerState where
  jobs : List (String × Job)
  files : List String
  deriving DecidableEq, Repr

/-- `job.get('status') in ['completed', 'error', 'no_silence']`. -/
def isTerminal (s : JobStatus) : Bool :=
  match s with
  | .completed | .error | .no_silence => true
  | _ => false

/-- Outcome of a download endpoint call. -/
inductive DownloadResp where
  | stream (path : String)
  | jobNotFound
  | wrongType (actual : JobType)
  | notCompleted (current : JobStatus)
  | outputNotFound
  deriving DecidableEq, Repr

/-- The HTTP status code each outcome carries. -/
def httpStatus : DownloadResp → Nat
  | .stream _ => 200
  | .jobNotFound => 404
  | .wrongType _ => 400
  | .notCompleted _ => 400
  | .outputNotFound => 404

/-- `os.remove(p)`. -/
def removeFile (files : List String) (p : String) : List String :=
  files.filter (· ≠ p)

/-- The download endpoint for job type `t` (`remove_silence_download` and
`burn_captions_download`): 404 for an absent id, 400 for a wrong job
type, 400 when not `completed`, 404 when the output file is missing, and
otherwise a streamed response whose `call_on_close` hook deletes the
output file while leaving the job record in the table. -/
def download (st : ServerState) (jid : String) (t : JobType) :
    DownloadResp × ServerState :=
  match st.jobs.lookup jid with
  | none => (.jobNotFound, st)
  | some j =>
      if j.job_type ≠ t then (.wrongType j.job_type, st)
      else if j.status ≠ .completed then (.notCompleted j.status, st)
      else
        match j.output_path with
        | none => (.outputNotFound, st)
        | some p =>
            if p ∈ st.files then
              (.stream p, { st with files := removeFile st.files p })
            else (.outputNotFound, st)

/-- Claim C7: downloading a completed job is at-most-once.  The first
download of a completed job of the right type whose output file exists
streams the file, deletes it, and leaves the job record untouched; the
second download of the same job answers "output not found" (a 404, not a
crash); downloading a non-completed job or a job of the wrong type is a
400 client error; an absent id is a 404. -/
theorem download_at_most_once :
    (∀ (st : ServerState) (jid : String) (t : JobType) (j : Job) (p : String),
        st.jobs.lookup jid = some j → j.job_type = t → j.status = .completed →
        j.output_path = some p → p ∈ st.files →
        (download st jid t).1 = .stream p ∧
        (download st jid t).2.jobs = st.jobs ∧
        p ∉ (download st jid t).2.files ∧
        (download (download st jid t).2 jid t).1 = .outputNotFound ∧
        (download (download st jid t).2 jid t).2 = (download st jid t).2 ∧
        httpStatus .outputNotFound = 404) ∧
    (∀ (st : ServerState) (jid : String) (t : JobType) (j : Job),
        st.jobs.lookup jid = some j → j.job_type = t → j.status ≠ .completed →
        download st jid t = (.notCompleted j.status, st) ∧
        httpStatus (.notCompleted j.status) = 400) ∧
    (∀ (st : ServerState) (jid : String) (t : JobType) (j : Job),
        st.jobs.lookup jid = some j → j.job_type ≠ t →
        download st jid t = (.wrongType j.job_type, st) ∧
        httpStatus (.wrongType j.job_type) = 400) ∧
    (∀ (st : ServerState) (jid : String) (t : JobType),
        st.jobs.lookup jid = none →
        download st jid t = (.jobNotFound, st) ∧ httpStatus .jobNotFound = 404) := by
  refine ⟨?_, ?_, ?_, ?_⟩
  · intro st jid t j p hl htype hstat hout hfile
    have hd1 : download st jid t =
        (.stream p, { st with files := removeFile st.files p }) := by
      rw [download]
      simp only [hl, htype, hstat, hout]
      simp [hfile]
    have hnot : p ∉ removeFile st.files p := by
      simp [removeFile, List.mem_filter]
    have hd2 : download { st with files := removeFile st.files p } jid t =
        (.outputNotFound, { st with files := removeFile st.files p }) := by
      rw [download]
      simp only [hl, htype, hstat, hout]
      simp [hnot]
    rw [hd1]
    exact ⟨rfl, rfl, hnot, by rw [hd2], by rw [hd2], rfl⟩
  · intro st jid t j hl htype hstat
    constructor
    · rw [download]
      simp only [hl, htype]
      simp [hstat]
    · rfl
  · intro st jid t j hl htype
    constructor
    · rw [download]
      simp only [hl]
      simp [htype]
    · rfl
  · intro st jid t hl
    constructor
    · rw [download]
      simp only [hl]
    · rfl

/-- Witness for `download_at_most_once` on a one-job table holding a
completed remove-silence job whose output file is present. -/
theorem download_at_most_once_witness :
    (download ⟨[("a", ⟨.completed, .removeSilence, 0, some 10, some "out"⟩)], ["out"]⟩
        "a" .removeSilence).1 =
      .stream "out" ∧
    (download ⟨[("a", ⟨.completed, .removeSilence, 0, some 10, some "out"⟩)], ["out"]⟩
        "a" .removeSilence).2.jobs =
      [("a", ⟨.completed, .removeSilence, 0, some 10, some "out"⟩)] ∧
    "out" ∉ (download ⟨[("a", ⟨.completed, .removeSilence, 0, some 10, some "out"⟩)],
        ["out"]⟩ "a" .removeSilence).2.files ∧
    (download (download ⟨[("a", ⟨.completed, .removeSilence, 0, some 10, some "out"⟩)],
        ["out"]⟩ "a" .removeSilence).2 "a" .removeSilence).1 = .outputNotFound ∧
    (download (download ⟨[("a", ⟨.completed, .removeSilence, 0, some 10, some "out"⟩)],
          ["out"]⟩ "a" .removeSilence).2 "a" .removeSilence).2 =
      (download ⟨[("a", ⟨.completed, .removeSilence, 0, some 10, some "out"⟩)],
        ["out"]⟩ "a" .removeSilence).2 ∧
    httpStatus .outputNotFound = 404 :=
  download_at_most_once.1
    ⟨[("a", ⟨.completed, .removeSilence, 0, some 10, some "out"⟩)], ["out"]⟩
    "a" .removeSilence ⟨.completed, .removeSilence, 0, some 10, some "out"⟩ "out"
    (by decide) rfl rfl rfl (by decide)

/-! ### Eviction sweep `cleanup_old_jobs` (`app.py` lines 338–381)

Run inline (under the table lock) by both submit endpoints and both
status endpoints.  First pass: collect every terminal job whose
completion time (`completed_at`, falling back to `created_at`) is more
than 900 seconds before `now`, deleting its output file.  Second pass:
if the table would still hold more than 50 jobs, sort the remaining
terminal jobs by completion time (Python's stable ascending sort) and
remove the oldest ones until exactly 50 jobs remain (or the terminal
candidates run out).  Finally all collected ids are deleted from the
table. -/

/-- `job.get('completed_at', job.get('created_at', 0))` (a record always
carries `created_at`, so the final `0` default is unreachable). -/
def ctime (j : Job) : ℚ := j.completed_at.getD j.created_at

/-- First-pass removals: terminal and completed more than 15 minutes ago. -/
def pass1Removals (st : ServerState) (now : ℚ) : List (String × Job) :=
  st.jobs.filter fun e => isTerminal e.2.status && decide (now - ctime e.2 > 900)

/-- Comparison used by `completed_jobs.sort(key=lambda x: x[1])`. -/
def ctimeLE (a b : String × Job) : Prop := ctime a.2 ≤ ctime b.2

instance : DecidableRel ctimeLE :=
  fun a b => (inferInstance : Decidable (ctime a.2 ≤ ctime b.2))

instance : IsTotal (String × Job) ctimeLE := ⟨fun a b => le_total (ctime a.2) (ctime b.2)⟩

instance : IsTrans (String × Job) ctimeLE := ⟨fun _ _ _ => le_trans⟩

/-- Second-pass candidates: still-terminal jobs not already collected. -/
def pass2Candidates (st : ServerState) (now : ℚ) : List (String × Job) :=
  st.jobs.filter fun e =>
    isTerminal e.2.status && !decide (e.1 ∈ (pass1Removals st now).map Prod.fst)

/-- Second-pass removals: if the table would still exceed 50 entries,
the oldest candidates by completion time, just enough to reach the cap. -/
def pass2Removals (st : ServerState) (now : ℚ) : List (String × Job) :=
  if st.jobs.length - (pass1Removals st now).length > 50 then
    (List.insertionSort ctimeLE (pass2Candidates st now)).take
      (st.jobs.length - (pass1Removals st now).length - 50)
  else []

/-- Delete a job's output file, when it has one. -/
def removeFileOf (files : List String) (j : Job) : List String :=
  match j.output_path with
  | some p => removeFile files p
  | none => files

/-- `cleanup_old_jobs` (`app.py` lines 338–381): drop every collected id
from the table and delete every collected job's output file. -/
def cleanup_old_jobs (st : ServerState) (now : ℚ) : ServerState :=
  { jobs := st.jobs.filter fun e =>
      !decide (e.1 ∈ (pass1Removals st now ++ pass2Removals st now).map Prod.fst),
    files := (pass1Removals st now ++ pass2Removals st now).foldl
      (fun fs e => removeFileOf fs e.2) st.files }

theorem removeFileOf_not_mem_preserve {p : String} {fs : List String} (j : Job)
    (h : p ∉ fs) : p ∉ removeFileOf fs j := by
  cases hq : j.output_path with
  | none => simpa [removeFileOf, hq] using h
  | some q =>
      simp only [removeFileOf, hq, removeFile]
      intro hmem
      exact h (List.mem_of_mem_filter hmem)

theorem foldl_removeFileOf_preserve {p : String} :
    ∀ (l : List (String × Job)) (fs : List String), p ∉ fs →
      p ∉ l.foldl (fun fs e => removeFileOf fs e.2) fs := by
  intro l
  induction l with
  | nil => intro fs h; exact h
  | cons e rest ih =>
      intro fs h
      exact ih _ (removeFileOf_not_mem_preserve e.2 h)

theorem foldl_removeFileOf_not_mem {p : String} :
    ∀ (l : List (String × Job)) (fs : List String),
      (∃ e ∈ l, e.2.output_path = some p) →
      p ∉ l.foldl (fun fs e => removeFileOf fs e.2) fs := by
  intro l
  induction l with
  | nil => intro fs h; simp at h
  | cons e rest ih =>
      intro fs h
      rcases h with ⟨f, hf, hfp⟩
      rcases List.mem_cons.mp hf with rfl | hf'
      · rw [List.foldl_cons]
        apply foldl_removeFileOf_preserve
        have heq : removeFileOf fs f.2 = removeFile fs p := by
          unfold removeFileOf
          rw [hfp]
        rw [heq, removeFile]
        simp [List.mem_filter]
      · exact ih _ ⟨f, hf', hfp⟩

/-- With unique keys, a key determines its record. -/
theorem key_unique :
    ∀ (l : List (String × Job)), (l.map Prod.fst).Nodup →
      ∀ {k : String} {a b : Job}, (k, a) ∈ l → (k, b) ∈ l → a = b := by
  intro l
  induction l with
  | nil => intro _ k a b ha _; simp at ha
  | cons e rest ih =>
      intro hnd k a b ha hb
      have hnd' : (rest.map Prod.fst).Nodup := (List.nodup_cons.mp hnd).2
      have hne : e.1 ∉ rest.map Prod.fst := (List.nodup_cons.mp hnd).1
      rcases List.mem_cons.mp ha with rfl | ha' <;>
        rcases List.mem_cons.mp hb with hb' | hb'
      · exact (congrArg Prod.snd hb'.symm : _)
      · exact absurd (List.mem_map_of_mem Prod.fst hb') (by simpa using hne)
      · rw [← hb'] at hne
        exact absurd (List.mem_map_of_mem Prod.fst ha') (by simpa using hne)
      · exact ih hnd' ha' hb'

/-- Removing the unique entry with a given key drops the length by one. -/
theorem length_filter_key_ne :
    ∀ (l : List (String × Job)) (k : String), (l.map Prod.fst).Nodup →
      k ∈ l.map Prod.fst →
      (l.filter fun e => !decide (e.1 = k)).length = l.length - 1 := by
  intro l
  induction l with
  | nil => intro k _ hk; simp at hk
  | cons e rest ih =>
      intro k hnd hk
      have hnd' : (rest.map Prod.fst).Nodup := (List.nodup_cons.mp hnd).2
      have hne : e.1 ∉ rest.map Prod.fst := (List.nodup_cons.mp hnd).1
      by_cases hek : e.1 = k
      · subst hek
        rw [List.filter_cons, if_neg (by simp)]
        have hrest : rest.filter (fun e' => !decide (e'.1 = e.1)) = rest := by
          apply List.filter_eq_self.mpr
          intro a ha
          have : a.1 ≠ e.1 := by
            intro h
            exact hne (h ▸ List.mem_map_of_mem Prod.fst ha)
          simp [this]
        rw [hrest]
        simp
      · have hk' : k ∈ rest.map Prod.fst := by
          rcases List.mem_cons.mp hk with h | h
          · exact absurd h.symm (by simpa using hek)
          · exact h
        have hlen : 0 < rest.length := by
          have := List.length_pos_of_mem hk'
          simpa using this
        rw [List.filter_cons, if_pos (by simp [hek])]
        rw [List.length_cons, ih k hnd' hk']
        simp only [List.length_cons]
        omega

/-- Dropping a duplicate-free set of present keys shrinks the table by
exactly the number of dropped entries. -/
theorem length_filter_not_mem_keys :
    ∀ (R l : List (String × Job)), (l.map Prod.fst).Nodup →
      (R.map Prod.fst).Nodup → (∀ e ∈ R, e ∈ l) →
      (l.filter fun e => !decide (e.1 ∈ R.map Prod.fst)).length =
        l.length - R.length := by
  intro R
  induction R with
  | nil =>
      intro l _ _ _
      simp
  | cons r R' ih =>
      intro l hndl hndR hsub
      have hndR' : (R'.map Prod.fst).Nodup := (List.nodup_cons.mp (by simpa using hndR)).2
      have hrK : r.1 ∉ R'.map Prod.fst := (List.nodup_cons.mp (by simpa using hndR)).1
      have hstep : (l.filter fun e => !decide (e.1 ∈ (r :: R').map Prod.fst)) =
          ((l.filter fun e => !decide (e.1 = r.1)).filter
            fun e => !decide (e.1 ∈ R'.map Prod.fst)) := by
        rw [List.filter_filter]
        apply List.filter_congr
        intro e _
        simp only [List.map_cons, List.mem_cons]
        by_cases h1 : e.1 = r.1 <;> by_cases h2 : e.1 ∈ R'.map Prod.fst <;>
          simp [h1, h2]
      rw [hstep]
      have hrl : r ∈ l := hsub r (List.mem_cons_self r R')
      have hrlk : r.1 ∈ l.map Prod.fst := List.mem_map_of_mem Prod.fst hrl
      have hlen1 := length_filter_key_ne l r.1 hndl hrlk
      have hsubl : List.Sublist (l.filter fun e => !decide (e.1 = r.1)) l :=
        List.filter_sublist l
      have hndl' : ((l.filter fun e => !decide (e.1 = r.1)).map Prod.fst).Nodup :=
        (hsubl.map Prod.fst).nodup hndl
      have hsub' : ∀ e ∈ R', e ∈ l.filter fun e => !decide (e.1 = r.1) := by
        intro e he
        have hel : e ∈ l := hsub e (List.mem_cons_of_mem r he)
        have hek : e.1 ≠ r.1 := by
          intro h
          exact hrK (h ▸ List.mem_map_of_mem Prod.fst he)
        rw [List.mem_filter]
        exact ⟨hel, by simp [hek]⟩
      rw [ih _ hndl' hndR' hsub', hlen1]
      simp only [List.length_cons]
      omega

theorem mem_pass1Removals {st : ServerState} {now : ℚ} {e : String × Job} :
    e ∈ pass1Removals st now ↔
      e ∈ st.jobs ∧ isTerminal e.2.status = true ∧ now - ctime e.2 > 900 := by
  simp [pass1Removals, List.mem_filter, Bool.and_eq_true, decide_eq_true_eq, and_assoc]

theorem mem_pass2Candidates {st : ServerState} {now : ℚ} {e : String × Job} :
    e ∈ pass2Candidates st now ↔
      e ∈ st.jobs ∧ isTerminal e.2.status = true ∧
        e.1 ∉ (pass1Removals st now).map Prod.fst := by
  simp [pass2Candidates, List.mem_filter, Bool.and_eq_true, and_assoc]

theorem pass2Removals_subset_candidates {st : ServerState} {now : ℚ}
    {e : String × Job} (he : e ∈ pass2Removals st now) :
    e ∈ pass2Candidates st now := by
  rw [pass2Removals] at he
  by_cases h : st.jobs.length - (pass1Removals st now).length > 50
  · rw [if_pos h] at he
    have h1 : e ∈ List.insertionSort ctimeLE (pass2Candidates st now) :=
      (List.take_sublist _ _).subset he
    exact (List.perm_insertionSort ctimeLE _).mem_iff.mp h1
  · rw [if_neg h] at he
    simp at he

theorem mem_removed {st : ServerState} {now : ℚ} {e : String × Job}
    (he : e ∈ pass1Removals st now ++ pass2Removals st now) :
    e ∈ st.jobs ∧ isTerminal e.2.status = true := by
  rcases List.mem_append.mp he with h | h
  · have h' := mem_pass1Removals.mp h
    exact ⟨h'.1, h'.2.1⟩
  · have h' := mem_pass2Candidates.mp (pass2Removals_subset_candidates h)
    exact ⟨h'.1, h'.2.1⟩

theorem removed_keys_nodup {st : ServerState} {now : ℚ}
    (hnd : (st.jobs.map Prod.fst).Nodup) :
    ((pass1Removals st now ++ pass2Removals st now).map Prod.fst).Nodup := by
  rw [List.map_append, List.nodup_append]
  refine ⟨?_, ?_, ?_⟩
  · exact ((List.filter_sublist _).map Prod.fst).nodup hnd
  · rw [pass2Removals]
    by_cases h : st.jobs.length - (pass1Removals st now).length > 50
    · rw [if_pos h]
      have hcand : ((pass2Candidates st now).map Prod.fst).Nodup :=
        ((List.filter_sublist _).map Prod.fst).nodup hnd
      have hperm : List.Perm
          ((List.insertionSort ctimeLE (pass2Candidates st now)).map Prod.fst)
          ((pass2Candidates st now).map Prod.fst) :=
        (List.perm_insertionSort ctimeLE _).map Prod.fst
      have hsorted : ((List.insertionSort ctimeLE (pass2Candidates st now)).map
          Prod.fst).Nodup := hperm.nodup_iff.mpr hcand
      exact ((List.take_sublist _ _).map Prod.fst).nodup hsorted
    · rw [if_neg h]
      simp
  · intro k hk1 hk2
    rcases List.mem_map.mp hk2 with ⟨e, he, rfl⟩
    exact (mem_pass2Candidates.mp (pass2Removals_subset_candidates he)).2.2 hk1

/-- Claim C8: the eviction sweep.  First pass: every terminal job whose
completion time is more than 15 minutes (900 s) before `now` is removed
from the table and its output file deleted.  Non-terminal jobs are never
evicted.  Second pass: it runs only when the table (after the first pass)
still holds more than 50 jobs; the cleaned table shrinks by exactly the
evicted entries, and when enough terminal candidates remain it lands
exactly on the 50-job cap; the evicted candidates are the oldest by
completion time — every evicted candidate's completion time is at most
that of every surviving candidate. -/
theorem cleanup_old_jobs_spec (st : ServerState) (now : ℚ)
    (hnd : (st.jobs.map Prod.fst).Nodup) :
    (∀ (jid : String) (j : Job), (jid, j) ∈ st.jobs → isTerminal j.status = true →
        now - ctime j > 900 →
        (∀ j' : Job, (jid, j') ∉ (cleanup_old_jobs st now).jobs) ∧
        (∀ p : String, j.output_path = some p →
            p ∉ (cleanup_old_jobs st now).files)) ∧
    (∀ (jid : String) (j : Job), (jid, j) ∈ st.jobs → isTerminal j.status = false →
        (jid, j) ∈ (cleanup_old_jobs st now).jobs) ∧
    (st.jobs.length - (pass1Removals st now).length ≤ 50 →
        pass2Removals st now = []) ∧
    ((cleanup_old_jobs st now).jobs.length =
        st.jobs.length -
          ((pass1Removals st now).length + (pass2Removals st now).length)) ∧
    (st.jobs.length - (pass1Removals st now).length > 50 →
        st.jobs.length - (pass1Removals st now).length - 50 ≤
          (pass2Candidates st now).length →
        (cleanup_old_jobs st now).jobs.length = 50) ∧
    (∀ e ∈ pass2Removals st now, ∀ f ∈ pass2Candidates st now,
        f ∉ pass2Removals st now → ctime e.2 ≤ ctime f.2) := by
  have hcount : (cleanup_old_jobs st now).jobs.length =
      st.jobs.length -
        ((pass1Removals st now).length + (pass2Removals st now).length) := by
    show (st.jobs.filter _).length = _
    rw [length_filter_not_mem_keys (pass1Removals st now ++ pass2Removals st now)
      st.jobs hnd (removed_keys_nodup hnd) (fun e he => (mem_removed he).1)]
    rw [List.length_append]
  refine ⟨?_, ?_, ?_, hcount, ?_, ?_⟩
  · intro jid j hmem hterm hstale
    have hin1 : (jid, j) ∈ pass1Removals st now :=
      mem_pass1Removals.mpr ⟨hmem, hterm, hstale⟩
    have hkey : jid ∈ (pass1Removals st now ++ pass2Removals st now).map Prod.fst :=
      List.mem_map_of_mem Prod.fst (List.mem_append.mpr (Or.inl hin1))
    constructor
    · intro j' hmem'
      have h2 := (List.mem_filter.mp hmem').2
      simp only [Bool.not_eq_eq_eq_not, Bool.not_true, decide_eq_false_iff_not] at h2
      exact h2 hkey
    · intro p hp
      exact foldl_removeFileOf_not_mem _ _
        ⟨(jid, j), List.mem_append.mpr (Or.inl hin1), hp⟩
  · intro jid j hmem hterm
    apply List.mem_filter.mpr
    refine ⟨hmem, ?_⟩
    simp only [Bool.not_eq_eq_eq_not, Bool.not_true, decide_eq_false_iff_not]
    intro hkey
    rcases List.mem_map.mp hkey with ⟨e, he, hek⟩
    have hjobs := mem_removed he
    have : e = (e.1, e.2) := rfl
    rw [this, hek] at hjobs
    have heq : e.2 = j := key_unique st.jobs hnd hjobs.1 hmem
    rw [heq] at hjobs
    rw [hjobs.2] at hterm
    exact absurd hterm (by simp)
  · intro h
    rw [pass2Removals, if_neg (by omega)]
  · intro hgt hcands
    rw [hcount]
    have hp2 : (pass2Removals st now).length =
        st.jobs.length - (pass1Removals st now).length - 50 := by
      rw [pass2Removals, if_pos hgt, List.length_take]
      have hslen : (List.insertionSort ctimeLE (pass2Candidates st now)).length =
          (pass2Candidates st now).length :=
        (List.perm_insertionSort ctimeLE _).length_eq
      rw [hslen]
      omega
    have hp1 : (pass1Removals st now).length ≤ st.jobs.length :=
      (List.filter_sublist _).length_le
    omega
  · intro e he f hf hfn
    rw [pass2Removals] at he hfn
    by_cases h : st.jobs.length - (pass1Removals st now).length > 50
    · rw [if_pos h] at he hfn
      set k := st.jobs.length - (pass1Removals st now).length - 50 with hk
      set sorted := List.insertionSort ctimeLE (pass2Candidates st now) with hs
      have hfs : f ∈ sorted := (List.perm_insertionSort ctimeLE _).mem_iff.mpr hf
      have hsplit : sorted.take k ++ sorted.drop k = sorted := List.take_append_drop k sorted
      have hfd : f ∈ sorted.drop k := by
        rcases List.mem_append.mp (hsplit ▸ hfs) with h' | h'
        · exact absurd h' hfn
        · exact h'
      have hpair : sorted.Pairwise ctimeLE := List.sorted_insertionSort ctimeLE _
      have hpair' : (sorted.take k ++ sorted.drop k).Pairwise ctimeLE := by
        rw [hsplit]; exact hpair
      exact (List.pairwise_append.mp hpair').2.2 e he f hfd
    · rw [if_neg h] at he
      simp at he

/-- A concrete table used to witness `cleanup_old_jobs_spec`: a stale
completed job with an output file, and a fresh pending job. -/
def c8State : ServerState :=
  ⟨[("a", ⟨.completed, .removeSilence, 0, some 10, some "f1"⟩),
    ("b", ⟨.pending, .burnCaptions, 5, none, none⟩)], ["f1"]⟩

/-- Witness for `cleanup_old_jobs_spec` at `c8State` with `now = 1000`. -/
theorem cleanup_old_jobs_spec_witness :
    (∀ (jid : String) (j : Job), (jid, j) ∈ c8State.jobs → isTerminal j.status = true →
        (1000 : ℚ) - ctime j > 900 →
        (∀ j' : Job, (jid, j') ∉ (cleanup_old_jobs c8State 1000).jobs) ∧
        (∀ p : String, j.output_path = some p →
            p ∉ (cleanup_old_jobs c8State 1000).files)) ∧
    (∀ (jid : String) (j : Job), (jid, j) ∈ c8State.jobs →
        isTerminal j.status = false →
        (jid, j) ∈ (cleanup_old_jobs c8State 1000).jobs) ∧
    (c8State.jobs.length - (pass1Removals c8State 1000).length ≤ 50 →
        pass2Removals c8State 1000 = []) ∧
    ((cleanup_old_jobs c8State 1000).jobs.length =
        c8State.jobs.length -
          ((pass1Removals c8State 1000).length +
            (pass2Removals c8State 1000).length)) ∧
    (c8State.jobs.length - (pass1Removals c8State 1000).length > 50 →
        c8State.jobs.length - (pass1Removals c8State 1000).length - 50 ≤
          (pass2Candidates c8State 1000).length →
        (cleanup_old_jobs c8State 1000).jobs.length = 50) ∧
    (∀ e ∈ pass2Removals c8State 1000, ∀ f ∈ pass2Candidates c8State 1000,
        f ∉ pass2Removals c8State 1000 → ctime e.2 ≤ ctime f.2) :=
  cleanup_old_jobs_spec c8State 1000 (by decide)

end SilenceRemover
